import Mathlib

/-
Shallow embedding of the R-tree spatial index of `Proyecto.py`
(classes `Point`, `Rectangle`, `RTreeNode`, `RTree`).

Coordinates are modelled as rationals, so all geometric tests are exact and
decidable; the Euclidean distance of `Point.distance_to` is modelled as a real
number via `Real.sqrt`.  The Python code mutates nodes in place; here every
operation returns the updated structure.  Operations that would raise in
Python (unpacking `best_entry = None` when an internal node has no entries)
return `none`.
-/

structure Point where
  x : ℚ
  y : ℚ
  name : String
  category : String
deriving DecidableEq, Repr

/-- `math.sqrt((self.x - other.x)**2 + (self.y - other.y)**2)`. -/
noncomputable def Point.distance_to (self other : Point) : ℝ :=
  Real.sqrt (((self.x : ℝ) - (other.x : ℝ)) ^ 2 + ((self.y : ℝ) - (other.y : ℝ)) ^ 2)

structure Rectangle where
  min_x : ℚ
  min_y : ℚ
  max_x : ℚ
  max_y : ℚ
deriving DecidableEq, Repr

def Rectangle.area (self : Rectangle) : ℚ :=
  (self.max_x - self.min_x) * (self.max_y - self.min_y)

/-- `self.min_x <= point.x <= self.max_x and self.min_y <= point.y <= self.max_y`. -/
def Rectangle.contains_point (self : Rectangle) (point : Point) : Bool :=
  decide (self.min_x ≤ point.x) && decide (point.x ≤ self.max_x) &&
  decide (self.min_y ≤ point.y) && decide (point.y ≤ self.max_y)

/-- `not (other.max_x < self.min_x or other.min_x > self.max_x or
         other.max_y < self.min_y or other.min_y > self.max_y)`. -/
def Rectangle.intersects (self other : Rectangle) : Bool :=
  !(decide (other.max_x < self.min_x) || decide (other.min_x > self.max_x) ||
    decide (other.max_y < self.min_y) || decide (other.min_y > self.max_y))

def Rectangle.enlargement_needed (self : Rectangle) (point : Point) : ℚ :=
  let new_min_x := min self.min_x point.x
  let new_min_y := min self.min_y point.y
  let new_max_x := max self.max_x point.x
  let new_max_y := max self.max_y point.y
  let new_area := (new_max_x - new_min_x) * (new_max_y - new_min_y)
  new_area - self.area

def Rectangle.expand_to_include (self : Rectangle) (point : Point) : Rectangle :=
  { min_x := min self.min_x point.x
    min_y := min self.min_y point.y
    max_x := max self.max_x point.x
    max_y := max self.max_y point.y }

/-- The throwaway point `Point(rect.min_x, rect.min_y, "", "")` built by `_choose_leaf`. -/
def Rectangle.lower_corner (rect : Rectangle) : Point :=
  ⟨rect.min_x, rect.min_y, "", ""⟩

/-- The throwaway point `Point(rect.max_x, rect.max_y, "", "")` built by `_choose_leaf`. -/
def Rectangle.upper_corner (rect : Rectangle) : Point :=
  ⟨rect.max_x, rect.max_y, "", ""⟩

/-- `RTreeNode`: a leaf holds `(Rectangle, Point)` entries, an internal node holds
`(Rectangle, RTreeNode)` entries; both cache an `mbr` (`None` until computed). -/
inductive RTreeNode : Type where
  | leaf (entries : List (Rectangle × Point)) (mbr : Option Rectangle)
  | internal (entries : List (Rectangle × RTreeNode)) (mbr : Option Rectangle)
deriving Repr

def RTreeNode.is_leaf : RTreeNode → Bool
  | .leaf _ _ => true
  | .internal _ _ => false

/-- The cached `mbr` field. -/
def RTreeNode.mbr : RTreeNode → Option Rectangle
  | .leaf _ m => m
  | .internal _ m => m

/-- The rectangles of the node's direct entries, in order. -/
def RTreeNode.entry_rects : RTreeNode → List Rectangle
  | .leaf es _ => es.map (fun e => e.1)
  | .internal es _ => es.map (fun e => e.1)

/-- `len(node.entries)`. -/
def RTreeNode.entry_count : RTreeNode → ℕ
  | .leaf es _ => es.length
  | .internal es _ => es.length

/-- The child node stored in entry `i` of an internal node. -/
def RTreeNode.child? (n : RTreeNode) (i : ℕ) : Option RTreeNode :=
  match n with
  | .leaf _ _ => none
  | .internal es _ => (es.get? i).map (fun e => e.2)

/-- Componentwise min/max of two rectangles. -/
def mbr_merge (acc s : Rectangle) : Rectangle :=
  { min_x := min acc.min_x s.min_x
    min_y := min acc.min_y s.min_y
    max_x := max acc.max_x s.max_x
    max_y := max acc.max_y s.max_y }

/-- The body of `RTreeNode.calculate_mbr`: componentwise min/max over the given
entry rectangles, `none` when there are none (the Python method returns early,
leaving the stored `mbr` unchanged). -/
def calculate_mbr (rects : List Rectangle) : Option Rectangle :=
  match rects with
  | [] => none
  | r :: rest => some (rest.foldl mbr_merge r)

/-- `node.calculate_mbr()` as a state update: recompute the cached `mbr` from the
current entries, keeping the old value when the entry list is empty. -/
def recalc (es : List (Rectangle × Point)) (m : Option Rectangle) : Option Rectangle :=
  match calculate_mbr (es.map (fun e => e.1)) with
  | none => m
  | some r => some r

/-- The entry-selection loop of `_choose_leaf`: scan the rectangles left to right,
keeping the index of the first entry whose enlargement is strictly smaller than the
current minimum (`none` plays the role of the initial `float('inf')`). -/
def choose_aux (q : Point) : List Rectangle → ℕ → Option (ℕ × ℚ) → Option (ℕ × ℚ)
  | [], _, best => best
  | r :: rest, i, best =>
    let enlargement := r.enlargement_needed q
    match best with
    | none => choose_aux q rest (i + 1) (some (i, enlargement))
    | some (j, m) =>
      if enlargement < m then choose_aux q rest (i + 1) (some (i, enlargement))
      else choose_aux q rest (i + 1) (some (j, m))

/-- Index (and enlargement) of the entry `_choose_leaf` descends into. -/
def choose_best (q : Point) (rects : List Rectangle) : Option (ℕ × ℚ) :=
  choose_aux q rects 0 none

/-- `_split_node` applied to a leaf with entry list `es` and cached mbr `m`:
`mid = len // 2`, the original node keeps `es[:mid]`, a fresh node receives
`es[mid:]` (its `mbr` starts as `None`), and `calculate_mbr` runs on both. -/
def split_leaf (es : List (Rectangle × Point)) (m : Option Rectangle) :
    RTreeNode × RTreeNode :=
  let mid := es.length / 2
  (RTreeNode.leaf (es.take mid) (recalc (es.take mid) m),
   RTreeNode.leaf (es.drop mid) (recalc (es.drop mid) none))

mutual
/-- One insertion pass over a node: the `_choose_leaf` descent (expanding the chosen
entry rectangle with both corners of `rect`), the append at the leaf, the leaf's
`calculate_mbr`, and `_split_node` at the leaf on overflow.  Returns the updated
node paired with the split-off sibling when a split happened at this node.  Only
`RTree.insert` reattaches a sibling (root promotion); an internal caller drops it,
exactly as the Python `_split_node` leaves a non-root sibling unattached. -/
def insert_rec (mx : ℕ) (rect : Rectangle) (point : Point) :
    RTreeNode → Option (RTreeNode × Option RTreeNode)
  | .leaf es m =>
    let es2 := es ++ [(rect, point)]
    let m2 := recalc es2 m
    if es2.length ≥ mx ∧ es2.length > mx then
      let s := split_leaf es2 m2
      some (s.1, some s.2)
    else
      some (.leaf es2 m2, none)
  | .internal es m =>
    match choose_best rect.lower_corner (es.map (fun e => e.1)) with
    | none => none
    | some (i, _) =>
      match insert_at mx rect point i es with
      | none => none
      | some es2 => some (.internal es2 m, none)

/-- Replace entry `i`: expand its rectangle in place with both corners of `rect`
and recurse into its child, dropping any sibling the child's split produced. -/
def insert_at (mx : ℕ) (rect : Rectangle) (point : Point) :
    ℕ → List (Rectangle × RTreeNode) → Option (List (Rectangle × RTreeNode))
  | _, [] => none
  | 0, e :: rest =>
    let er := (e.1.expand_to_include rect.lower_corner).expand_to_include
      rect.upper_corner
    match insert_rec mx rect point e.2 with
    | none => none
    | some (c2, _sib) => some ((er, c2) :: rest)
  | i + 1, e :: rest =>
    match insert_at mx rect point i rest with
    | none => none
    | some rest2 => some (e :: rest2)
end

structure RTree where
  max_entries : ℕ
  root : RTreeNode
  size : ℕ
  height : ℕ
deriving Repr

/-- `RTree.__init__`: an empty leaf root, size 0, height 1. -/
def RTree.new (max_entries : ℕ) : RTree :=
  { max_entries := max_entries
    root := .leaf [] none
    size := 0
    height := 1 }

/-- `RTree.insert`: wrap the point as a degenerate rectangle, run the descent, and
perform the root-promotion branch of `_split_node` when the root itself split. -/
def RTree.insert (t : RTree) (point : Point) : Option RTree :=
  let rect : Rectangle := ⟨point.x, point.y, point.x, point.y⟩
  match insert_rec t.max_entries rect point t.root with
  | none => none
  | some (root2, none) => some { t with root := root2, size := t.size + 1 }
  | some (root2, some new_node) =>
    match root2.mbr, new_node.mbr with
    | some m1, some m2 =>
      some { t with
        root := RTreeNode.internal [(m1, root2), (m2, new_node)]
          (calculate_mbr [m1, m2])
        size := t.size + 1
        height := t.height + 1 }
    | _, _ => none

/-- Build a tree by inserting the points in order into a fresh tree. -/
def insert_all (mx : ℕ) (points : List Point) : Option RTree :=
  points.foldlM (fun t p => t.insert p) (RTree.new mx)

mutual
/-- `_range_search`, returning the accumulated result list in traversal order. -/
def range_search : RTreeNode → Rectangle → List Point
  | .leaf es _, query_rect =>
    es.filterMap (fun e =>
      if e.1.intersects query_rect then
        (if query_rect.contains_point e.2 then some e.2 else none)
      else none)
  | .internal es _, query_rect => range_search_list es query_rect

def range_search_list : List (Rectangle × RTreeNode) → Rectangle → List Point
  | [], _ => []
  | e :: rest, query_rect =>
    (if e.1.intersects query_rect then range_search e.2 query_rect else []) ++
      range_search_list rest query_rect
end

def RTree.range_query (t : RTree) (query_rect : Rectangle) : List Point :=
  range_search t.root query_rect

mutual
/-- `_collect_all_points`: every point reachable from the node, in entry order. -/
def collect_all_points : RTreeNode → List Point
  | .leaf es _ => es.map (fun e => e.2)
  | .internal es _ => collect_list es

def collect_list : List (Rectangle × RTreeNode) → List Point
  | [] => []
  | e :: rest => collect_all_points e.2 ++ collect_list rest
end

/-- Python list slicing `l[:k]`, including the negative-`k` case. -/
def py_slice {α : Type} (l : List α) (k : ℤ) : List α :=
  if 0 ≤ k then l.take k.toNat else l.take ((l.length : ℤ) + k).toNat

/-- Comparison used for `distances.sort(key=lambda x: x[1])`. -/
def dist_le (a b : Point × ℝ) : Prop := a.2 ≤ b.2

noncomputable instance : DecidableRel dist_le :=
  fun a b => inferInstanceAs (Decidable (a.2 ≤ b.2))

instance : IsTotal (Point × ℝ) dist_le := ⟨fun a b => le_total a.2 b.2⟩

instance : IsTrans (Point × ℝ) dist_le := ⟨fun _ _ _ h1 h2 => le_trans h1 h2⟩

/-- `RTree.knn_query`: collect every reachable point, pair it with its distance to
the query point, sort ascending by distance (a stable sort, like Python's), and
return the slice `distances[:k]`. -/
noncomputable def RTree.knn_query (t : RTree) (query_point : Point) (k : ℤ) :
    List (Point × ℝ) :=
  let all_points := collect_all_points t.root
  let distances := all_points.map (fun p => (p, query_point.distance_to p))
  py_slice (distances.insertionSort dist_le) k

/-! Specification-level definitions used to state the verified properties. -/

/-- `p` lies inside the closed box of `r`: the proposition decided by
`Rectangle.contains_point`, also used to say an entry rectangle covers a point. -/
def covered (r : Rectangle) (p : Point) : Prop :=
  r.min_x ≤ p.x ∧ p.x ≤ r.max_x ∧ r.min_y ≤ p.y ∧ p.y ≤ r.max_y

/-- The degenerate rectangle `Rectangle(point.x, point.y, point.x, point.y)`
that `RTree.insert` builds for a point. -/
def deg_rect (p : Point) : Rectangle := ⟨p.x, p.y, p.x, p.y⟩

/-- `m` bounds `r` componentwise (what "tightly bounds" unfolds to, per entry). -/
def rect_bounds (m r : Rectangle) : Prop :=
  m.min_x ≤ r.min_x ∧ m.min_y ≤ r.min_y ∧ r.max_x ≤ m.max_x ∧ r.max_y ≤ m.max_y

/-- Shape of every leaf produced by insertions: each entry rectangle is the
degenerate rectangle of its point, and the cached `mbr` is the `calculate_mbr`
of the current entries whenever there are any. -/
def LeafInv (es : List (Rectangle × Point)) (m : Option Rectangle) : Prop :=
  (∀ e ∈ es, e.1 = deg_rect e.2) ∧
  (es ≠ [] → m = calculate_mbr (es.map (fun e => e.1)))

/-- Invariant of every tree reachable from `RTree.new` by `RTree.insert`: the
root is a leaf, or an internal node with a nonempty list of leaf children whose
entry rectangles cover every point stored below them.  (The tree never grows
deeper, because `_split_node` only reattaches a sibling when the root itself
splits, and the root splits only while it is a leaf.) -/
def TreeInv (t : RTree) : Prop :=
  match t.root with
  | .leaf es m => LeafInv es m
  | .internal es _ =>
    es ≠ [] ∧ ∀ e ∈ es, ∃ les lm, e.2 = RTreeNode.leaf les lm ∧ LeafInv les lm ∧
      ∀ p ∈ les.map (fun x => x.2), covered e.1 p

/-- The reachable point lists of an internal node, one list per entry. -/
def RTreeNode.child_points : RTreeNode → List (List Point)
  | .leaf _ _ => []
  | .internal es _ => es.map (fun e => collect_all_points e.2)


/-! Concrete fixtures used to evaluate the verified properties. -/

/-- A labelled point with empty name and category. -/
def mk_point (a b : ℚ) : Point := ⟨a, b, "", ""⟩

/-- Four inserts with `max_entries = 2`: the third insert splits the root, the
fourth overflows a non-root leaf. -/
def demo_points : List Point := [mk_point 0 0, mk_point 1 1, mk_point 2 2, mk_point 5 5]

def demo_tree : RTree := (insert_all 2 demo_points).getD (RTree.new 2)

/-- Three inserts with `max_entries = 2`: ends with an internal root of two leaves. -/
def demo3_points : List Point := [mk_point 0 0, mk_point 1 1, mk_point 2 2]

def demo3_tree : RTree := (insert_all 2 demo3_points).getD (RTree.new 2)

def demo3_leaf1 : List (Rectangle × Point) :=
  [(⟨1, 1, 1, 1⟩, mk_point 1 1), (⟨2, 2, 2, 2⟩, mk_point 2 2)]

def demo3_entries : List (Rectangle × RTreeNode) :=
  [(⟨0, 0, 0, 0⟩, RTreeNode.leaf [(⟨0, 0, 0, 0⟩, mk_point 0 0)] (some ⟨0, 0, 0, 0⟩)),
   (⟨1, 1, 2, 2⟩, RTreeNode.leaf demo3_leaf1 (some ⟨1, 1, 2, 2⟩))]

/-- Two inserts with `max_entries = 4`: the root stays a leaf. -/
def two_points : List Point := [mk_point 0 0, mk_point 3 4]

def two_tree : RTree := (insert_all 4 two_points).getD (RTree.new 4)

/-! ### Basic lemmas about the geometry primitives -/

theorem contains_point_iff (r : Rectangle) (p : Point) :
    r.contains_point p = true ↔ covered r p := by
  simp [Rectangle.contains_point, covered, and_assoc]

theorem intersects_deg (p : Point) (R : Rectangle) :
    (deg_rect p).intersects R = R.contains_point p := by
  rw [Bool.eq_iff_iff]
  simp only [Rectangle.intersects, Rectangle.contains_point, deg_rect,
    Bool.not_eq_true', Bool.or_eq_false_iff, Bool.and_eq_true,
    decide_eq_false_iff_not, decide_eq_true_eq, not_lt]
  tauto

theorem intersects_of_covered {er R : Rectangle} {p : Point}
    (hc : covered er p) (hR : R.contains_point p = true) :
    er.intersects R = true := by
  rw [contains_point_iff] at hR
  obtain ⟨c1, c2, c3, c4⟩ := hc
  obtain ⟨d1, d2, d3, d4⟩ := hR
  simp only [Rectangle.intersects, Bool.not_eq_true', Bool.or_eq_false_iff,
    decide_eq_false_iff_not, not_lt]
  exact ⟨⟨⟨le_trans c1 d2, le_trans d1 c2⟩, le_trans c3 d4⟩, le_trans d3 c4⟩

theorem covered_expand {er : Rectangle} {pt p : Point}
    (h : covered er p) : covered (er.expand_to_include pt) p := by
  obtain ⟨h1, h2, h3, h4⟩ := h
  exact ⟨le_trans (min_le_left _ _) h1, le_trans h2 (le_max_left _ _),
    le_trans (min_le_left _ _) h3, le_trans h4 (le_max_left _ _)⟩

theorem covered_expand_corners (er : Rectangle) (p : Point) :
    covered ((er.expand_to_include (deg_rect p).lower_corner).expand_to_include
      (deg_rect p).upper_corner) p := by
  simp only [covered, Rectangle.expand_to_include, Rectangle.lower_corner,
    Rectangle.upper_corner, deg_rect]
  exact ⟨min_le_right _ _, le_max_right _ _, min_le_right _ _, le_max_right _ _⟩

/-! ### Lemmas about `calculate_mbr` -/

theorem recalc_nil (m : Option Rectangle) : recalc [] m = m := rfl

theorem recalc_nonempty {es : List (Rectangle × Point)} (m : Option Rectangle)
    (h : es ≠ []) : recalc es m = calculate_mbr (es.map (fun e => e.1)) := by
  cases es with
  | nil => exact absurd rfl h
  | cons e rest => rfl

theorem calculate_mbr_nonempty {rects : List Rectangle} (h : rects ≠ []) :
    ∃ r, calculate_mbr rects = some r := by
  cases rects with
  | nil => exact absurd rfl h
  | cons r rest => exact ⟨_, rfl⟩

theorem rect_bounds_merge_left (a b : Rectangle) : rect_bounds (mbr_merge a b) a :=
  ⟨min_le_left _ _, min_le_left _ _, le_max_left _ _, le_max_left _ _⟩

theorem rect_bounds_merge_right (a b : Rectangle) : rect_bounds (mbr_merge a b) b :=
  ⟨min_le_right _ _, min_le_right _ _, le_max_right _ _, le_max_right _ _⟩

theorem rect_bounds_trans {a b c : Rectangle}
    (h1 : rect_bounds a b) (h2 : rect_bounds b c) : rect_bounds a c :=
  ⟨le_trans h1.1 h2.1, le_trans h1.2.1 h2.2.1,
   le_trans h2.2.2.1 h1.2.2.1, le_trans h2.2.2.2 h1.2.2.2⟩

theorem foldl_mbr_merge_bounds :
    ∀ (rest : List Rectangle) (acc : Rectangle),
      rect_bounds (rest.foldl mbr_merge acc) acc ∧
      ∀ s ∈ rest, rect_bounds (rest.foldl mbr_merge acc) s := by
  intro rest
  induction rest with
  | nil =>
    intro acc
    exact ⟨⟨le_refl _, le_refl _, le_refl _, le_refl _⟩, by simp⟩
  | cons s rest ih =>
    intro acc
    have h := ih (mbr_merge acc s)
    constructor
    · exact rect_bounds_trans h.1 (rect_bounds_merge_left acc s)
    · intro u hu
      rcases List.mem_cons.mp hu with h1 | h1
      · subst h1
        exact rect_bounds_trans h.1 (rect_bounds_merge_right acc u)
      · exact h.2 u h1

theorem calculate_mbr_bounds {rects : List Rectangle} {m : Rectangle}
    (h : calculate_mbr rects = some m) : ∀ r ∈ rects, rect_bounds m r := by
  cases rects with
  | nil => simp [calculate_mbr] at h
  | cons r0 rest =>
    simp only [calculate_mbr, Option.some.injEq] at h
    subst h
    intro r hr
    rcases List.mem_cons.mp hr with h1 | h1
    · subst h1
      exact (foldl_mbr_merge_bounds rest r).1
    · exact (foldl_mbr_merge_bounds rest r0).2 r h1

theorem covered_of_bounds {m : Rectangle} {p : Point}
    (h : rect_bounds m (deg_rect p)) : covered m p :=
  ⟨h.1, h.2.2.1, h.2.1, h.2.2.2⟩

/-! ### The entry-selection loop keeps the first strict minimum -/

theorem choose_aux_spec (q : Point) :
    ∀ (rs : List Rectangle) (n j : ℕ) (m : ℚ),
      ∃ i e, choose_aux q rs n (some (j, m)) = some (i, e) ∧ e ≤ m ∧
        ((i = j ∧ e = m ∧ ∀ k r, rs.get? k = some r → m ≤ r.enlargement_needed q) ∨
         (∃ k r, rs.get? k = some r ∧ i = n + k ∧ e = r.enlargement_needed q ∧ e < m ∧
           (∀ k2 r2, rs.get? k2 = some r2 → e ≤ r2.enlargement_needed q) ∧
           (∀ k2 r2, k2 < k → rs.get? k2 = some r2 → e < r2.enlargement_needed q))) := by
  intro rs
  induction rs with
  | nil =>
    intro n j m
    exact ⟨j, m, rfl, le_refl m, Or.inl ⟨rfl, rfl, by simp⟩⟩
  | cons r rest ih =>
    intro n j m
    by_cases h : r.enlargement_needed q < m
    · obtain ⟨i, e, heq, hle, hcase⟩ := ih (n + 1) n (r.enlargement_needed q)
      refine ⟨i, e, ?_, le_trans hle (le_of_lt h), ?_⟩
      · simpa [choose_aux, h] using heq
      · rcases hcase with ⟨hi, he, hmin⟩ | ⟨k, rk, hget, hik, hek, hlt, hmin, hstrict⟩
        · refine Or.inr ⟨0, r, rfl, by omega, he, he ▸ h, ?_, ?_⟩
          · intro k2 r2 hk2
            cases k2 with
            | zero =>
              simp only [List.get?] at hk2
              cases hk2
              exact le_of_eq he
            | succ k3 =>
              simp only [List.get?] at hk2
              exact he ▸ hmin k3 r2 hk2
          · intro k2 r2 hlt2 _
            exact absurd hlt2 (Nat.not_lt_zero k2)
        · refine Or.inr ⟨k + 1, rk, by simpa using hget, by omega, hek,
            lt_trans hlt h, ?_, ?_⟩
          · intro k2 r2 hk2
            cases k2 with
            | zero =>
              simp only [List.get?] at hk2
              cases hk2
              exact le_of_lt hlt
            | succ k3 =>
              simp only [List.get?] at hk2
              exact hmin k3 r2 hk2
          · intro k2 r2 hk2lt hk2
            cases k2 with
            | zero =>
              simp only [List.get?] at hk2
              cases hk2
              exact hlt
            | succ k3 =>
              simp only [List.get?] at hk2
              exact hstrict k3 r2 (by omega) hk2
    · obtain ⟨i, e, heq, hle, hcase⟩ := ih (n + 1) j m
      refine ⟨i, e, ?_, hle, ?_⟩
      · simpa [choose_aux, h] using heq
      · rcases hcase with ⟨hi, he, hmin⟩ | ⟨k, rk, hget, hik, hek, hlt, hmin, hstrict⟩
        · refine Or.inl ⟨hi, he, ?_⟩
          intro k2 r2 hk2
          cases k2 with
          | zero =>
            simp only [List.get?] at hk2
            cases hk2
            exact not_lt.mp h
          | succ k3 =>
            simp only [List.get?] at hk2
            exact hmin k3 r2 hk2
        · refine Or.inr ⟨k + 1, rk, by simpa using hget, by omega, hek, hlt, ?_, ?_⟩
          · intro k2 r2 hk2
            cases k2 with
            | zero =>
              simp only [List.get?] at hk2
              cases hk2
              exact le_of_lt (lt_of_lt_of_le hlt (not_lt.mp h))
            | succ k3 =>
              simp only [List.get?] at hk2
              exact hmin k3 r2 hk2
          · intro k2 r2 hk2lt hk2
            cases k2 with
            | zero =>
              simp only [List.get?] at hk2
              cases hk2
              exact lt_of_lt_of_le hlt (not_lt.mp h)
            | succ k3 =>
              simp only [List.get?] at hk2
              exact hstrict k3 r2 (by omega) hk2

theorem choose_best_spec (q : Point) {rs : List Rectangle} (hne : rs ≠ []) :
    ∃ i e r, choose_best q rs = some (i, e) ∧ rs.get? i = some r ∧
      e = r.enlargement_needed q ∧
      (∀ k rk, rs.get? k = some rk → e ≤ rk.enlargement_needed q) ∧
      (∀ k rk, k < i → rs.get? k = some rk → e < rk.enlargement_needed q) := by
  cases rs with
  | nil => exact absurd rfl hne
  | cons r rest =>
    obtain ⟨i, e, heq, hle, hcase⟩ := choose_aux_spec q rest 1 0 (r.enlargement_needed q)
    have hunfold : choose_best q (r :: rest) =
        choose_aux q rest 1 (some (0, r.enlargement_needed q)) := by
      simp [choose_best, choose_aux]
    rcases hcase with ⟨hi, he, hmin⟩ | ⟨k, rk, hget, hik, hek, hlt, hmin, hstrict⟩
    · subst hi
      refine ⟨0, e, r, hunfold ▸ heq, rfl, he, ?_, ?_⟩
      · intro k2 rk2 hk2
        cases k2 with
        | zero =>
          simp only [List.get?] at hk2
          cases hk2
          exact le_of_eq he
        | succ k3 =>
          simp only [List.get?] at hk2
          exact he ▸ hmin k3 rk2 hk2
      · intro k2 rk2 hk2lt _
        exact absurd hk2lt (Nat.not_lt_zero k2)
    · refine ⟨i, e, rk, hunfold ▸ heq, ?_, hek, ?_, ?_⟩
      · have : i = k + 1 := by omega
        subst this
        simpa using hget
      · intro k2 rk2 hk2
        cases k2 with
        | zero =>
          simp only [List.get?] at hk2
          cases hk2
          exact le_of_lt hlt
        | succ k3 =>
          simp only [List.get?] at hk2
          exact hmin k3 rk2 hk2
      · intro k2 rk2 hk2lt hk2
        cases k2 with
        | zero =>
          simp only [List.get?] at hk2
          cases hk2
          exact hlt
        | succ k3 =>
          simp only [List.get?] at hk2
          exact hstrict k3 rk2 (by omega) hk2

/-! ### Unfolding lemmas for insertion -/

theorem insert_rec_leaf_no_split {mx : ℕ} {es : List (Rectangle × Point)}
    {m : Option Rectangle} (rect : Rectangle) (point : Point)
    (h : es.length + 1 ≤ mx) :
    insert_rec mx rect point (.leaf es m) =
      some (.leaf (es ++ [(rect, point)]) (recalc (es ++ [(rect, point)]) m), none) := by
  simp [insert_rec]
  omega

theorem insert_rec_leaf_split {mx : ℕ} {es : List (Rectangle × Point)}
    {m : Option Rectangle} (rect : Rectangle) (point : Point)
    (h : es.length + 1 > mx) :
    insert_rec mx rect point (.leaf es m) =
      some ((split_leaf (es ++ [(rect, point)]) (recalc (es ++ [(rect, point)]) m)).1,
        some ((split_leaf (es ++ [(rect, point)]) (recalc (es ++ [(rect, point)]) m)).2)) := by
  simp [insert_rec]
  omega

theorem insert_at_eq {mx : ℕ} (rect : Rectangle) (point : Point) :
    ∀ (i : ℕ) (es : List (Rectangle × RTreeNode)) (er : Rectangle) (c c2 : RTreeNode)
      (osib : Option RTreeNode),
      es.get? i = some (er, c) →
      insert_rec mx rect point c = some (c2, osib) →
      insert_at mx rect point i es = some (es.set i
        ((er.expand_to_include rect.lower_corner).expand_to_include rect.upper_corner,
          c2)) := by
  intro i
  induction i with
  | zero =>
    intro es er c c2 osib hget hrec
    cases es with
    | nil => simp at hget
    | cons e rest =>
      simp only [List.get?] at hget
      cases hget
      simp [insert_at, hrec, List.set]
  | succ n ih =>
    intro es er c c2 osib hget hrec
    cases es with
    | nil => simp at hget
    | cons e rest =>
      simp only [List.get?] at hget
      simp [insert_at, ih rest er c c2 osib hget hrec, List.set]

/-! ### Insertion preserves the tree invariant -/

theorem leafinv_recalc {es : List (Rectangle × Point)} (m : Option Rectangle)
    (hdeg : ∀ e ∈ es, e.1 = deg_rect e.2) : LeafInv es (recalc es m) :=
  ⟨hdeg, fun hne => recalc_nonempty m hne⟩

theorem leaf_mbr_covers {es : List (Rectangle × Point)} {mr : Rectangle}
    (hdeg : ∀ e ∈ es, e.1 = deg_rect e.2)
    (hm : calculate_mbr (es.map (fun e => e.1)) = some mr) :
    ∀ p ∈ es.map (fun e => e.2), covered mr p := by
  intro p hp
  obtain ⟨e, he, hep⟩ := List.mem_map.mp hp
  have h1 : e.1 ∈ es.map (fun e => e.1) := List.mem_map.mpr ⟨e, he, rfl⟩
  have hb := calculate_mbr_bounds hm e.1 h1
  rw [hdeg e he, hep] at hb
  exact covered_of_bounds hb

theorem insert_rec_leaf_inv {mx : ℕ} {es : List (Rectangle × Point)}
    {m : Option Rectangle} {rect : Rectangle} {p : Point}
    (hr : rect = deg_rect p) (hdeg : ∀ e ∈ es, e.1 = deg_rect e.2) :
    ∃ es3 m3 osib, insert_rec mx rect p (.leaf es m) = some (.leaf es3 m3, osib) ∧
      LeafInv es3 m3 ∧ ∀ e ∈ es3, e ∈ es ∨ e = (rect, p) := by
  have hdeg2 : ∀ e ∈ es ++ [(rect, p)], e.1 = deg_rect e.2 := by
    intro e he
    rcases List.mem_append.mp he with h | h
    · exact hdeg e h
    · simp only [List.mem_singleton] at h
      subst h
      exact hr
  by_cases hsplit : es.length + 1 > mx
  · rw [insert_rec_leaf_split rect p hsplit]
    simp only [split_leaf]
    refine ⟨_, _, _, rfl, leafinv_recalc _ (fun e he => hdeg2 e (List.mem_of_mem_take he)),
      ?_⟩
    intro e he
    rcases List.mem_append.mp (List.mem_of_mem_take he) with h | h
    · exact Or.inl h
    · exact Or.inr (by simpa using h)
  · rw [insert_rec_leaf_no_split rect p (by omega)]
    refine ⟨_, _, _, rfl, leafinv_recalc _ hdeg2, ?_⟩
    intro e he
    rcases List.mem_append.mp he with h | h
    · exact Or.inl h
    · exact Or.inr (by simpa using h)

theorem insert_ok {t : RTree} (hinv : TreeInv t) (p : Point) :
    ∃ t2, t.insert p = some t2 ∧ TreeInv t2 ∧ t2.size = t.size + 1 ∧
      t2.max_entries = t.max_entries := by
  obtain ⟨mx, root, sz, hh⟩ := t
  cases root with
  | leaf es m =>
    have hdeg : ∀ e ∈ es, e.1 = deg_rect e.2 := hinv.1
    have hdeg2 : ∀ e ∈ es ++ [((⟨p.x, p.y, p.x, p.y⟩ : Rectangle), p)],
        e.1 = deg_rect e.2 := by
      intro e he
      rcases List.mem_append.mp he with h | h
      · exact hdeg e h
      · simp only [List.mem_singleton] at h
        subst h
        rfl
    by_cases hsplit : es.length + 1 > mx
    · -- the root leaf splits: root promotion
      set es2 := es ++ [((⟨p.x, p.y, p.x, p.y⟩ : Rectangle), p)] with hes2
      have hes2ne : es2 ≠ [] := by simp [hes2]
      set mid := es2.length / 2 with hmid
      have hm2 : ∃ r2, recalc es2 m = some r2 := by
        obtain ⟨r2, hr2⟩ := @calculate_mbr_nonempty
          (es2.map (fun e => e.1)) (by simpa using hes2ne)
        exact ⟨r2, by rw [recalc_nonempty m hes2ne, hr2]⟩
      have hkept : ∃ m1, recalc (es2.take mid) (recalc es2 m) = some m1 ∧
          ∀ q ∈ (es2.take mid).map (fun e => e.2), covered m1 q := by
        cases htk : es2.take mid with
        | nil =>
          obtain ⟨r2, hr2⟩ := hm2
          exact ⟨r2, by rw [recalc_nil]; exact hr2, by simp⟩
        | cons a l =>
          obtain ⟨mr, hmr⟩ := @calculate_mbr_nonempty
            ((a :: l).map (fun e => e.1)) (by simp)
          refine ⟨mr, by rw [recalc_nonempty _ (List.cons_ne_nil a l)]; exact hmr, ?_⟩
          refine leaf_mbr_covers ?_ hmr
          intro e he
          exact hdeg2 e (List.mem_of_mem_take (hes2 ▸ htk ▸ he))
      have hdropne : es2.drop mid ≠ [] := by
        have hlt : mid < es2.length := by
          have h1 : 0 < es2.length := List.length_pos.mpr hes2ne
          exact Nat.div_lt_self h1 (by omega)
        intro hcon
        have := List.drop_eq_nil_iff_le.mp hcon
        omega
      have hsib : ∃ ms, recalc (es2.drop mid) none = some ms ∧
          ∀ q ∈ (es2.drop mid).map (fun e => e.2), covered ms q := by
        obtain ⟨mr, hmr⟩ := @calculate_mbr_nonempty
          ((es2.drop mid).map (fun e => e.1)) (by simpa using hdropne)
        refine ⟨mr, by rw [recalc_nonempty _ hdropne]; exact hmr, ?_⟩
        exact leaf_mbr_covers (fun e he => hdeg2 e (List.mem_of_mem_drop he)) hmr
      obtain ⟨m1, hm1, hcov1⟩ := hkept
      obtain ⟨ms, hms, hcovs⟩ := hsib
      refine ⟨⟨mx, .internal
          [(m1, .leaf (es2.take mid) (recalc (es2.take mid) (recalc es2 m))),
           (ms, .leaf (es2.drop mid) (recalc (es2.drop mid) none))]
          (calculate_mbr [m1, ms]), sz + 1, hh + 1⟩, ?_, ?_, rfl, rfl⟩
      · simp only [RTree.insert]
        rw [insert_rec_leaf_split (⟨p.x, p.y, p.x, p.y⟩ : Rectangle) p hsplit]
        simp only [split_leaf, RTreeNode.mbr]
        rw [hm1, hms]
      · refine ⟨by simp, ?_⟩
        intro e he
        rcases List.mem_cons.mp he with h | h
        · subst h
          refine ⟨_, _, rfl, ?_, hcov1⟩
          exact leafinv_recalc _ (fun e he => hdeg2 e (List.mem_of_mem_take he))
        · simp only [List.mem_singleton] at h
          subst h
          refine ⟨_, _, rfl, ?_, hcovs⟩
          exact leafinv_recalc _ (fun e he => hdeg2 e (List.mem_of_mem_drop he))
    · -- no split: still a single leaf root
      refine ⟨⟨mx, .leaf (es ++ [(⟨p.x, p.y, p.x, p.y⟩, p)])
          (recalc (es ++ [(⟨p.x, p.y, p.x, p.y⟩, p)]) m), sz + 1, hh⟩, ?_, ?_, rfl, rfl⟩
      · simp only [RTree.insert]
        rw [insert_rec_leaf_no_split (⟨p.x, p.y, p.x, p.y⟩ : Rectangle) p (by omega)]
      · exact leafinv_recalc _ hdeg2
  | internal es m =>
    obtain ⟨hne, hch⟩ := hinv
    have hrne : es.map (fun e => e.1) ≠ [] := by simpa using hne
    obtain ⟨i, en, r, hcb, hget, her, hmin, hstr⟩ :=
      choose_best_spec (Rectangle.lower_corner ⟨p.x, p.y, p.x, p.y⟩) hrne
    have hgetes : ∃ ent, es.get? i = some ent ∧ ent.1 = r := by
      rw [List.get?_map] at hget
      cases hgi : es.get? i with
      | none => rw [hgi] at hget; simp at hget
      | some ent =>
        rw [hgi] at hget
        simp at hget
        exact ⟨ent, rfl, hget⟩
    obtain ⟨ent, hgi, hentr⟩ := hgetes
    have hmem : ent ∈ es := List.get?_mem hgi
    obtain ⟨les, lm, hcleaf, hlinv, hcov⟩ := hch ent hmem
    obtain ⟨es3, m3, osib, hrec, hlinv3, hmem3⟩ :=
      @insert_rec_leaf_inv mx les lm ⟨p.x, p.y, p.x, p.y⟩ p rfl hlinv.1
    have hrec2 : insert_rec mx (⟨p.x, p.y, p.x, p.y⟩ : Rectangle) p ent.2 =
        some (.leaf es3 m3, osib) := by rw [hcleaf]; exact hrec
    have hat := insert_at_eq (⟨p.x, p.y, p.x, p.y⟩ : Rectangle) p i es ent.1 ent.2
      (.leaf es3 m3) osib (by rw [← hgi]) hrec2
    set er2 := (ent.1.expand_to_include
        (Rectangle.lower_corner ⟨p.x, p.y, p.x, p.y⟩)).expand_to_include
        (Rectangle.upper_corner ⟨p.x, p.y, p.x, p.y⟩) with her2
    refine ⟨⟨mx, .internal (es.set i (er2, .leaf es3 m3)) m, sz + 1, hh⟩, ?_, ?_, rfl, rfl⟩
    · simp [RTree.insert, insert_rec, hcb, hat]
    · refine ⟨by simpa using hne, ?_⟩
      intro e2 he2
      rcases List.mem_or_eq_of_mem_set he2 with h | h
      · exact hch e2 h
      · subst h
        refine ⟨es3, m3, rfl, hlinv3, ?_⟩
        intro q hq
        obtain ⟨e3, he3, he3q⟩ := List.mem_map.mp hq
        rcases hmem3 e3 he3 with h3 | h3
        · have hc : covered ent.1 q := hcov q (List.mem_map.mpr ⟨e3, h3, he3q⟩)
          exact covered_expand (covered_expand hc)
        · subst h3
          simp only at he3q
          subst he3q
          exact covered_expand_corners ent.1 p

/-! ### Trees built by sequences of inserts -/

theorem tree_inv_new (mx : ℕ) : TreeInv (RTree.new mx) :=
  ⟨fun e he => absurd he (List.not_mem_nil e), fun h => absurd rfl h⟩

theorem foldl_insert_ok (ps : List Point) :
    ∀ t : RTree, TreeInv t →
      ∃ t2, ps.foldlM (fun t p => t.insert p) t = some t2 ∧ TreeInv t2 ∧
        t2.size = t.size + ps.length ∧ t2.max_entries = t.max_entries := by
  induction ps with
  | nil =>
    intro t h
    exact ⟨t, rfl, h, by simp, rfl⟩
  | cons p rest ih =>
    intro t h
    obtain ⟨t1, h1, hinv1, hsz1, hmx1⟩ := insert_ok h p
    obtain ⟨t2, h2, hinv2, hsz2, hmx2⟩ := ih t1 hinv1
    refine ⟨t2, ?_, hinv2, ?_, hmx2.trans hmx1⟩
    · simp only [List.foldlM_cons, h1, Option.some_bind]
      exact h2
    · rw [hsz2, hsz1]
      simp only [List.length_cons]
      omega

theorem insert_all_ok (mx : ℕ) (ps : List Point) :
    ∃ t, insert_all mx ps = some t ∧ TreeInv t ∧ t.size = ps.length ∧
      t.max_entries = mx := by
  obtain ⟨t, h, hinv, hsz, hmx⟩ := foldl_insert_ok ps (RTree.new mx) (tree_inv_new mx)
  exact ⟨t, h, hinv, by simpa [RTree.new] using hsz, by simpa [RTree.new] using hmx⟩

theorem insert_all_elim {mx : ℕ} {ps : List Point} {t : RTree}
    (h : insert_all mx ps = some t) :
    TreeInv t ∧ t.size = ps.length ∧ t.max_entries = mx := by
  obtain ⟨t2, h2, hinv, hsz, hmx⟩ := insert_all_ok mx ps
  rw [h] at h2
  injection h2 with h3
  subst h3
  exact ⟨hinv, hsz, hmx⟩

/-! ### Range queries return exactly the reachable contained points -/

theorem collect_list_eq_flatten (es : List (Rectangle × RTreeNode)) :
    collect_list es = (es.map (fun e => collect_all_points e.2)).flatten := by
  induction es with
  | nil => simp [collect_list]
  | cons e rest ih => simp [collect_list, ih]

theorem range_leaf (m : Option Rectangle) (R : Rectangle) :
    ∀ es : List (Rectangle × Point), (∀ e ∈ es, e.1 = deg_rect e.2) →
      range_search (.leaf es m) R =
        (es.map (fun e => e.2)).filter (fun p => R.contains_point p) := by
  intro es
  induction es with
  | nil => intro _; rfl
  | cons e rest ih =>
    intro hdeg
    have hdr := hdeg e (List.mem_cons_self e rest)
    have htail : range_search (.leaf rest m) R =
        rest.filterMap (fun e =>
          if e.1.intersects R then
            (if R.contains_point e.2 then some e.2 else none)
          else none) := by
      simp [range_search]
    simp only [range_search, List.filterMap_cons, List.map_cons, List.filter_cons]
    rw [hdr, intersects_deg]
    have ihr := ih (fun e2 he2 => hdeg e2 (List.mem_cons_of_mem e he2))
    rw [htail] at ihr
    cases hc : R.contains_point e.2 with
    | false => simpa [hc] using ihr
    | true => simpa [hc] using congrArg (fun l => e.2 :: l) ihr

theorem range_list_eq_filter (R : Rectangle) :
    ∀ es : List (Rectangle × RTreeNode),
      (∀ e ∈ es, ∃ les lm, e.2 = RTreeNode.leaf les lm ∧ LeafInv les lm ∧
        ∀ p ∈ les.map (fun x => x.2), covered e.1 p) →
      range_search_list es R =
        (collect_list es).filter (fun p => R.contains_point p) := by
  intro es
  induction es with
  | nil => intro _; rfl
  | cons e rest ih =>
    intro hch
    obtain ⟨les, lm, hleaf, hlinv, hcov⟩ := hch e (List.mem_cons_self e rest)
    simp only [range_search_list, collect_list, List.filter_append]
    rw [ih (fun e2 he2 => hch e2 (List.mem_cons_of_mem e he2))]
    congr 1
    by_cases hint : e.1.intersects R = true
    · rw [if_pos hint, hleaf, range_leaf lm R les hlinv.1]
      simp [collect_all_points]
    · rw [if_neg hint]
      symm
      rw [List.filter_eq_nil_iff]
      intro p hp
      rw [hleaf] at hp
      have hp2 : p ∈ les.map (fun x => x.2) := by simpa [collect_all_points] using hp
      have hcv : covered e.1 p := hcov p hp2
      intro hcp
      exact hint (intersects_of_covered hcv hcp)

theorem range_eq_filter {t : RTree} (hinv : TreeInv t) (R : Rectangle) :
    t.range_query R =
      (collect_all_points t.root).filter (fun p => R.contains_point p) := by
  obtain ⟨mx, root, sz, hh⟩ := t
  cases root with
  | leaf es m =>
    have hdeg : ∀ e ∈ es, e.1 = deg_rect e.2 := hinv.1
    simp only [RTree.range_query, collect_all_points]
    exact range_leaf m R es hdeg
  | internal es m =>
    obtain ⟨hne, hch⟩ := hinv
    simp only [RTree.range_query, range_search, collect_all_points]
    exact range_list_eq_filter R es hch

/-! ### Growth of a leaf root, and root promotion -/

theorem foldl_insert_leaf_phase :
    ∀ (ps : List Point) (mx : ℕ) (es : List (Rectangle × Point)) (m : Option Rectangle)
      (sz hh : ℕ), es.length + ps.length ≤ mx →
      ∃ m2, ps.foldlM (fun t p => t.insert p)
          (⟨mx, .leaf es m, sz, hh⟩ : RTree) =
        some (⟨mx, .leaf (es ++ ps.map (fun p => (deg_rect p, p))) m2,
          sz + ps.length, hh⟩ : RTree) := by
  intro ps
  induction ps with
  | nil =>
    intro mx es m sz hh h
    exact ⟨m, by simp⟩
  | cons p rest ih =>
    intro mx es m sz hh h
    have hlen : es.length + (rest.length + 1) ≤ mx := by simpa using h
    have hns : es.length + 1 ≤ mx := by omega
    have hins : RTree.insert ⟨mx, .leaf es m, sz, hh⟩ p =
        some ⟨mx, .leaf (es ++ [(deg_rect p, p)]) (recalc (es ++ [(deg_rect p, p)]) m),
          sz + 1, hh⟩ := by
      simp only [RTree.insert]
      rw [insert_rec_leaf_no_split _ _ hns]
      rfl
    obtain ⟨m2, h2⟩ := ih mx (es ++ [(deg_rect p, p)])
      (recalc (es ++ [(deg_rect p, p)]) m) (sz + 1) hh (by simp; omega)
    refine ⟨m2, ?_⟩
    have hl : (es ++ [(deg_rect p, p)]) ++ rest.map (fun p => (deg_rect p, p)) =
        es ++ (p :: rest).map (fun p => (deg_rect p, p)) := by simp
    have hn : sz + 1 + rest.length = sz + (p :: rest).length := by
      simp only [List.length_cons]
      omega
    rw [List.foldlM_cons, hins]
    exact h2.trans (by rw [hl, hn])

theorem insert_root_split_shape {mx : ℕ} {es : List (Rectangle × Point)}
    {m : Option Rectangle} {sz hh : ℕ} (p : Point) (hsplit : es.length + 1 > mx) :
    ∃ t2, RTree.insert ⟨mx, RTreeNode.leaf es m, sz, hh⟩ p = some t2 ∧
      t2.height = hh + 1 ∧ t2.root.is_leaf = false ∧ t2.root.entry_count = 2 ∧
      t2.size = sz + 1 ∧ t2.max_entries = mx := by
  set es2 := es ++ [((⟨p.x, p.y, p.x, p.y⟩ : Rectangle), p)] with hes2
  have hes2ne : es2 ≠ [] := by simp [hes2]
  set mid := es2.length / 2 with hmid
  have hm2 : ∃ r2, recalc es2 m = some r2 := by
    obtain ⟨r2, hr2⟩ := @calculate_mbr_nonempty
      (es2.map (fun e => e.1)) (by simpa using hes2ne)
    exact ⟨r2, by rw [recalc_nonempty m hes2ne, hr2]⟩
  have hkept : ∃ m1, recalc (es2.take mid) (recalc es2 m) = some m1 := by
    cases htk : es2.take mid with
    | nil =>
      obtain ⟨r2, hr2⟩ := hm2
      exact ⟨r2, by rw [recalc_nil]; exact hr2⟩
    | cons a l =>
      obtain ⟨mr, hmr⟩ := @calculate_mbr_nonempty
        ((a :: l).map (fun e => e.1)) (by simp)
      exact ⟨mr, by rw [recalc_nonempty _ (List.cons_ne_nil a l)]; exact hmr⟩
  have hdropne : es2.drop mid ≠ [] := by
    have hlt : mid < es2.length := by
      have h1 : 0 < es2.length := List.length_pos.mpr hes2ne
      exact Nat.div_lt_self h1 (by omega)
    intro hcon
    have := List.drop_eq_nil_iff.mp hcon
    omega
  have hsib : ∃ ms, recalc (es2.drop mid) none = some ms := by
    obtain ⟨mr, hmr⟩ := @calculate_mbr_nonempty
      ((es2.drop mid).map (fun e => e.1)) (by simpa using hdropne)
    exact ⟨mr, by rw [recalc_nonempty _ hdropne]; exact hmr⟩
  obtain ⟨m1, hm1⟩ := hkept
  obtain ⟨ms, hms⟩ := hsib
  refine ⟨⟨mx, .internal
      [(m1, .leaf (es2.take mid) (recalc (es2.take mid) (recalc es2 m))),
       (ms, .leaf (es2.drop mid) (recalc (es2.drop mid) none))]
      (calculate_mbr [m1, ms]), sz + 1, hh + 1⟩, ?_, rfl, rfl, rfl, rfl, rfl⟩
  simp only [RTree.insert]
  rw [insert_rec_leaf_split (⟨p.x, p.y, p.x, p.y⟩ : Rectangle) p hsplit]
  simp only [split_leaf, RTreeNode.mbr]
  rw [hm1, hms]

/-! ### The claims -/

/-- C1: for every tree built by a sequence of inserts and every query rectangle
`R` with `R.min_x ≤ R.max_x` and `R.min_y ≤ R.max_y`, `range_query R` returns
exactly the inserted points still reachable from the root that satisfy
`R.contains_point`, each occurrence exactly once and in traversal order: the
result is the reachable point list filtered by `contains_point`. -/
theorem C1_range_query_filter {mx : ℕ} {ps : List Point} {t : RTree} {R : Rectangle}
    (ht : insert_all mx ps = some t)
    (hwx : R.min_x ≤ R.max_x) (hwy : R.min_y ≤ R.max_y) :
    t.range_query R =
      (collect_all_points t.root).filter (fun p => R.contains_point p) :=
  range_eq_filter (insert_all_elim ht).1 R

theorem C1_witness :
    insert_all 2 demo_points = some demo_tree ∧
    (0 : ℚ) ≤ 2 ∧ (0 : ℚ) ≤ 2 ∧
    demo_tree.range_query ⟨0, 0, 2, 2⟩ =
      (collect_all_points demo_tree.root).filter
        (fun p => Rectangle.contains_point ⟨0, 0, 2, 2⟩ p) :=
  ⟨by with_unfolding_all rfl, by norm_num, by norm_num,
    @C1_range_query_filter 2 demo_points demo_tree ⟨0, 0, 2, 2⟩
      (by with_unfolding_all rfl) (by norm_num) (by norm_num)⟩

/-- C4: starting from the empty tree, every sequence of `N` inserts succeeds and
leaves `tree.size = N`, regardless of whether and where splits occurred. -/
theorem C4_size_after_inserts (mx : ℕ) (ps : List Point) :
    ∃ t, insert_all mx ps = some t ∧ t.size = ps.length := by
  obtain ⟨t, h, _, hsz, _⟩ := insert_all_ok mx ps
  exact ⟨t, h, hsz⟩

/-- C5 counterexample: after the four `demo_points` inserts (`max_entries = 2`),
the root is reachable, has entries, but its cached `mbr` is **not** the
componentwise min/max of its direct entry rectangles (the root's entry
rectangle was expanded by `_choose_leaf` without recomputing the root's mbr),
refuting the claim as stated. -/
theorem C5_counterexample :
    insert_all 2 demo_points = some demo_tree ∧
    demo_tree.root.entry_rects ≠ [] ∧
    demo_tree.root.mbr ≠ calculate_mbr demo_tree.root.entry_rects :=
  ⟨by with_unfolding_all rfl, by with_unfolding_all decide,
    by with_unfolding_all decide⟩

/-- C5 amended: after any sequence of insertions, every reachable **leaf** node
with nonempty entries has its cached `mbr` equal to the componentwise min/max of
its direct entries' rectangles; internal nodes' cached mbrs are not recomputed
during insertion and can be stale. -/
theorem C5_amended_leaf_mbr {mx : ℕ} {ps : List Point} {t : RTree}
    (ht : insert_all mx ps = some t) :
    ∀ n : RTreeNode, (n = t.root ∨ ∃ i, t.root.child? i = some n) →
      n.is_leaf = true → n.entry_rects ≠ [] →
      n.mbr = calculate_mbr n.entry_rects := by
  have hinv := (insert_all_elim ht).1
  intro n hreach hleaf hne
  obtain ⟨mxv, root, sz, hh⟩ := t
  cases root with
  | leaf es m =>
    rcases hreach with h | ⟨i, hi⟩
    · subst h
      have hes : es ≠ [] := by
        intro hcon
        subst hcon
        exact hne rfl
      simpa [RTreeNode.mbr, RTreeNode.entry_rects] using hinv.2 hes
    · simp [RTreeNode.child?] at hi
  | internal es m =>
    obtain ⟨hne2, hch⟩ := hinv
    rcases hreach with h | ⟨i, hi⟩
    · subst h
      simp [RTreeNode.is_leaf] at hleaf
    · simp only [RTreeNode.child?] at hi
      cases hgi : es.get? i with
      | none => rw [hgi] at hi; simp at hi
      | some ent =>
        rw [hgi] at hi
        simp at hi
        obtain ⟨les, lm, hcleaf, hlinv, _⟩ := hch ent (List.get?_mem hgi)
        have hlesne : les ≠ [] := by
          intro hcon
          apply hne
          rw [← hi, hcleaf, hcon]
          rfl
        rw [← hi, hcleaf]
        simpa [RTreeNode.mbr, RTreeNode.entry_rects] using hlinv.2 hlesne

theorem C5_amended_witness :
    insert_all 4 two_points = some two_tree ∧
    two_tree.root.mbr = calculate_mbr two_tree.root.entry_rects :=
  ⟨by with_unfolding_all rfl,
    @C5_amended_leaf_mbr 4 two_points two_tree (by with_unfolding_all rfl)
      two_tree.root (Or.inl rfl)
      (by with_unfolding_all decide) (by with_unfolding_all decide)⟩

/-- C10: expanding a well-formed rectangle (`min_x ≤ max_x`, `min_y ≤ max_y`) to
include any point never decreases its area: `enlargement_needed` is nonnegative. -/
theorem C10_enlargement_nonneg {r : Rectangle} (p : Point)
    (hx : r.min_x ≤ r.max_x) (hy : r.min_y ≤ r.max_y) :
    0 ≤ r.enlargement_needed p := by
  have h1 : r.max_x - r.min_x ≤ max r.max_x p.x - min r.min_x p.x :=
    sub_le_sub (le_max_left _ _) (min_le_left _ _)
  have h2 : r.max_y - r.min_y ≤ max r.max_y p.y - min r.min_y p.y :=
    sub_le_sub (le_max_left _ _) (min_le_left _ _)
  have h3 : (0 : ℚ) ≤ r.max_x - r.min_x := by linarith
  have h4 : (0 : ℚ) ≤ r.max_y - r.min_y := by linarith
  have h5 := mul_le_mul h1 h2 h4 (le_trans h3 h1)
  simp only [Rectangle.enlargement_needed, Rectangle.area]
  linarith

theorem C10_witness :
    (Rectangle.mk 0 0 2 2).min_x ≤ (Rectangle.mk 0 0 2 2).max_x ∧
    (Rectangle.mk 0 0 2 2).min_y ≤ (Rectangle.mk 0 0 2 2).max_y ∧
    0 ≤ (Rectangle.mk 0 0 2 2).enlargement_needed (mk_point 5 5) :=
  ⟨by norm_num, by norm_num,
    C10_enlargement_nonneg (mk_point 5 5) (by norm_num) (by norm_num)⟩

/-- C8 counterexample: the inverted rectangle `Q = (5,0)-(0,5)` (with
`min_x > max_x`) **does** intersect the rectangle `(-10,-10)-(10,10)` under the
code's separating-axis test, in both argument orders, refuting "an inverted
rectangle never intersects anything". -/
theorem C8_counterexample :
    ((Rectangle.mk 5 0 0 5).min_x > (Rectangle.mk 5 0 0 5).max_x ∨
      (Rectangle.mk 5 0 0 5).min_y > (Rectangle.mk 5 0 0 5).max_y) ∧
    (Rectangle.mk 5 0 0 5).intersects (Rectangle.mk (-10) (-10) 10 10) = true ∧
    (Rectangle.mk (-10) (-10) 10 10).intersects (Rectangle.mk 5 0 0 5) = true := by
  refine ⟨Or.inl (by norm_num), by with_unfolding_all decide,
    by with_unfolding_all decide⟩

/-- C8 amended: an inverted rectangle `Q` (`min_x > max_x` or `min_y > max_y`)
never intersects a *degenerate* rectangle (`min = max` on both axes, the form
every point takes in the index), in either argument order; a wide enough
rectangle that spans the inverted gap can still intersect `Q`. -/
theorem C8_inverted_never_intersects_degenerate {Q R : Rectangle}
    (hQ : Q.min_x > Q.max_x ∨ Q.min_y > Q.max_y)
    (hx : R.min_x = R.max_x) (hy : R.min_y = R.max_y) :
    Q.intersects R = false ∧ R.intersects Q = false := by
  constructor
  · simp only [Rectangle.intersects, Bool.not_eq_false', Bool.or_eq_true,
      decide_eq_true_eq]
    rcases hQ with h | h
    · by_cases h2 : R.max_x < Q.min_x
      · exact Or.inl (Or.inl (Or.inl h2))
      · exact Or.inl (Or.inl (Or.inr (by push_neg at h2; linarith)))
    · by_cases h2 : R.max_y < Q.min_y
      · exact Or.inl (Or.inr h2)
      · exact Or.inr (by push_neg at h2; linarith)
  · simp only [Rectangle.intersects, Bool.not_eq_false', Bool.or_eq_true,
      decide_eq_true_eq]
    rcases hQ with h | h
    · by_cases h2 : Q.max_x < R.min_x
      · exact Or.inl (Or.inl (Or.inl h2))
      · exact Or.inl (Or.inl (Or.inr (by push_neg at h2; linarith)))
    · by_cases h2 : Q.max_y < R.min_y
      · exact Or.inl (Or.inr h2)
      · exact Or.inr (by push_neg at h2; linarith)

theorem C8_amended_witness :
    ((Rectangle.mk 5 0 0 5).min_x > (Rectangle.mk 5 0 0 5).max_x ∨
      (Rectangle.mk 5 0 0 5).min_y > (Rectangle.mk 5 0 0 5).max_y) ∧
    (Rectangle.mk 2 2 2 2).min_x = (Rectangle.mk 2 2 2 2).max_x ∧
    (Rectangle.mk 2 2 2 2).min_y = (Rectangle.mk 2 2 2 2).max_y ∧
    ((Rectangle.mk 5 0 0 5).intersects (Rectangle.mk 2 2 2 2) = false ∧
     (Rectangle.mk 2 2 2 2).intersects (Rectangle.mk 5 0 0 5) = false) :=
  ⟨Or.inl (by norm_num), rfl, rfl,
    C8_inverted_never_intersects_degenerate (Or.inl (by norm_num)) rfl rfl⟩

/-- C9 counterexample: `knn_query` with the negative `k = -1` on a two-point
tree returns one pair, not the empty sequence: Python's `distances[:k]` with
negative `k` drops only the last `|k|` elements. -/
theorem C9_counterexample :
    (-1 : ℤ) ≤ 0 ∧ two_tree.knn_query (mk_point 0 0) (-1) ≠ [] := by
  refine ⟨by norm_num, ?_⟩
  have hlen : (List.insertionSort dist_le ((collect_all_points two_tree.root).map
      (fun p => (p, (mk_point 0 0).distance_to p)))).length = 2 := by
    rw [List.length_insertionSort, List.length_map]
    with_unfolding_all decide
  have hq : (two_tree.knn_query (mk_point 0 0) (-1)).length = 1 := by
    simp only [RTree.knn_query, py_slice]
    rw [if_neg (by norm_num), List.length_take, hlen]
    decide
  intro hcon
  rw [hcon] at hq
  simp at hq

/-- C9 amended: for `k = 0` the query returns the empty sequence; for `k < 0`
Python slicing returns all sorted reachable points except the last `|k|`, so the
result length is `max 0 (n + k)` where `n` is the number of reachable points —
empty only when `|k| ≥ n`. -/
theorem C9_nonpositive_k (t : RTree) (q : Point) (k : ℤ) (hk : k ≤ 0) :
    (k = 0 → t.knn_query q k = []) ∧
    (k < 0 → (t.knn_query q k).length =
      (((collect_all_points t.root).length : ℤ) + k).toNat) := by
  constructor
  · intro h0
    subst h0
    simp [RTree.knn_query, py_slice]
  · intro hneg
    have hlen : (List.insertionSort dist_le ((collect_all_points t.root).map
        (fun p => (p, q.distance_to p)))).length =
        (collect_all_points t.root).length := by
      rw [List.length_insertionSort, List.length_map]
    simp only [RTree.knn_query, py_slice]
    rw [if_neg (by omega), List.length_take, hlen]
    omega

theorem C9_witness :
    (0 : ℤ) ≤ 0 ∧
    ((0 : ℤ) = 0 → two_tree.knn_query (mk_point 0 0) 0 = []) ∧
    ((0 : ℤ) < 0 → (two_tree.knn_query (mk_point 0 0) 0).length =
      (((collect_all_points two_tree.root).length : ℤ) + 0).toNat) :=
  ⟨le_refl 0, (C9_nonpositive_k two_tree (mk_point 0 0) 0 (le_refl 0)).1,
    (C9_nonpositive_k two_tree (mk_point 0 0) 0 (le_refl 0)).2⟩

/-- C6: for `maxEntries ≥ 2`, inserting `maxEntries + 1` points into a freshly
constructed tree (whose height starts at 1) splits the root on the last insert:
the height becomes 2 and the root becomes a non-leaf node with exactly 2
entries. -/
theorem C6_root_promotion {mx : ℕ} {ps : List Point} (hmx : 2 ≤ mx)
    (hlen : ps.length = mx + 1) :
    (RTree.new mx).height = 1 ∧
    ∃ t, insert_all mx ps = some t ∧ t.height = 2 ∧ t.root.is_leaf = false ∧
      t.root.entry_count = 2 := by
  refine ⟨rfl, ?_⟩
  rcases ps.eq_nil_or_concat with h | ⟨qs, q, hq⟩
  · rw [h] at hlen
    simp at hlen
  · subst hq
    have hqlen : qs.length = mx := by
      rw [List.concat_eq_append, List.length_append] at hlen
      simp at hlen
      omega
    obtain ⟨m2, hphase⟩ := foldl_insert_leaf_phase qs mx [] none 0 1
      (by simp [hqlen])
    obtain ⟨t2, hins, hh2, hlf, hec, hsz, hmx2⟩ :=
      @insert_root_split_shape mx ([] ++ qs.map (fun p => (deg_rect p, p)))
        m2 (0 + qs.length) 1 q
        (by simp [hqlen])
    refine ⟨t2, ?_, by rw [hh2], hlf, hec⟩
    have hnew : (RTree.new mx) = ⟨mx, .leaf [] none, 0, 1⟩ := rfl
    have hlast : List.foldlM (fun (t : RTree) p => t.insert p)
        (⟨mx, .leaf ([] ++ qs.map (fun p => (deg_rect p, p))) m2,
          0 + qs.length, 1⟩ : RTree) [q] = some t2 := by
      rw [List.foldlM_cons, hins]
      rfl
    rw [List.concat_eq_append]
    unfold insert_all
    rw [List.foldlM_append, hnew, hphase]
    exact hlast

theorem C6_witness :
    2 ≤ 2 ∧ (demo3_points.length = 2 + 1) ∧
    ((RTree.new 2).height = 1 ∧
      ∃ t, insert_all 2 demo3_points = some t ∧ t.height = 2 ∧
        t.root.is_leaf = false ∧ t.root.entry_count = 2) :=
  ⟨le_refl 2, rfl, C6_root_promotion (le_refl 2) rfl⟩

/-- `insert_at` leaves every entry other than the one at the chosen index
untouched (the single-path descent of `_choose_leaf`). -/
theorem insert_at_others {mx : ℕ} {rect : Rectangle} {point : Point} :
    ∀ (i : ℕ) (es es2 : List (Rectangle × RTreeNode)),
      insert_at mx rect point i es = some es2 →
      es2.length = es.length ∧ ∀ j, j ≠ i → es2.get? j = es.get? j := by
  intro i
  induction i with
  | zero =>
    intro es es2 h
    cases es with
    | nil => simp [insert_at] at h
    | cons e rest =>
      simp only [insert_at] at h
      cases hrec : insert_rec mx rect point e.2 with
      | none => rw [hrec] at h; simp at h
      | some pr =>
        rw [hrec] at h
        simp only [Option.some.injEq] at h
        subst h
        refine ⟨by simp, ?_⟩
        intro j hj
        cases j with
        | zero => exact absurd rfl hj
        | succ n => simp [List.get?]
  | succ n ih =>
    intro es es2 h
    cases es with
    | nil => simp [insert_at] at h
    | cons e rest =>
      simp only [insert_at] at h
      cases hat : insert_at mx rect point n rest with
      | none => rw [hat] at h; simp at h
      | some rest2 =>
        rw [hat] at h
        simp only [Option.some.injEq] at h
        subst h
        obtain ⟨hlen, hoth⟩ := ih rest rest2 hat
        refine ⟨by simp [hlen], ?_⟩
        intro j hj
        cases j with
        | zero => simp [List.get?]
        | succ k =>
          simp only [List.get?]
          exact hoth k (by omega)

/-- C7: during insertion, leaf selection at the (internal) root picks the entry
whose rectangle needs the least `enlargement_needed` for the inserted point's
degenerate rectangle (the code evaluates it at the rectangle's lower corner),
ties broken in favour of the first entry in list order with no secondary
tie-break, and the descent follows that single path: every other entry of the
node is left untouched by the insertion. -/
theorem C7_choose_leaf_spec {t : RTree} (p : Point)
    (hnl : t.root.is_leaf = false) (hne : t.root.entry_rects ≠ []) :
    ∃ i en,
      choose_best (Rectangle.lower_corner ⟨p.x, p.y, p.x, p.y⟩) t.root.entry_rects =
        some (i, en) ∧
      (∃ er, t.root.entry_rects.get? i = some er ∧
        en = er.enlargement_needed (Rectangle.lower_corner ⟨p.x, p.y, p.x, p.y⟩)) ∧
      (∀ k rk, t.root.entry_rects.get? k = some rk →
        en ≤ rk.enlargement_needed (Rectangle.lower_corner ⟨p.x, p.y, p.x, p.y⟩)) ∧
      (∀ k rk, k < i → t.root.entry_rects.get? k = some rk →
        en < rk.enlargement_needed (Rectangle.lower_corner ⟨p.x, p.y, p.x, p.y⟩)) ∧
      (∀ t2, t.insert p = some t2 →
        t2.root.entry_count = t.root.entry_count ∧
        ∀ j, j ≠ i → t2.root.child? j = t.root.child? j) := by
  obtain ⟨mx, root, sz, hh⟩ := t
  cases root with
  | leaf es m => simp [RTreeNode.is_leaf] at hnl
  | internal es m =>
    have hrne : es.map (fun e => e.1) ≠ [] := hne
    obtain ⟨i, en, r, hcb, hget, her, hmin, hstr⟩ :=
      choose_best_spec (Rectangle.lower_corner ⟨p.x, p.y, p.x, p.y⟩) hrne
    refine ⟨i, en, hcb, ⟨r, hget, her⟩, hmin, hstr, ?_⟩
    intro t2 hins
    cases hat : insert_at mx ⟨p.x, p.y, p.x, p.y⟩ p i es with
    | none =>
      simp only [RTree.insert, insert_rec, hcb, hat] at hins
      simp at hins
    | some es2 =>
      simp only [RTree.insert, insert_rec, hcb, hat, Option.some.injEq] at hins
      subst hins
      obtain ⟨hlen, hoth⟩ := insert_at_others i es es2 hat
      constructor
      · simpa [RTreeNode.entry_count] using hlen
      · intro j hj
        simp only [RTreeNode.child?]
        rw [hoth j hj]

theorem C7_witness :
    demo3_tree.root.is_leaf = false ∧ demo3_tree.root.entry_rects ≠ [] ∧
    ∃ i en,
      choose_best (Rectangle.lower_corner ⟨(mk_point 7 7).x, (mk_point 7 7).y,
          (mk_point 7 7).x, (mk_point 7 7).y⟩) demo3_tree.root.entry_rects =
        some (i, en) ∧
      (∃ er, demo3_tree.root.entry_rects.get? i = some er ∧
        en = er.enlargement_needed (Rectangle.lower_corner ⟨(mk_point 7 7).x,
          (mk_point 7 7).y, (mk_point 7 7).x, (mk_point 7 7).y⟩)) ∧
      (∀ k rk, demo3_tree.root.entry_rects.get? k = some rk →
        en ≤ rk.enlargement_needed (Rectangle.lower_corner ⟨(mk_point 7 7).x,
          (mk_point 7 7).y, (mk_point 7 7).x, (mk_point 7 7).y⟩)) ∧
      (∀ k rk, k < i → demo3_tree.root.entry_rects.get? k = some rk →
        en < rk.enlargement_needed (Rectangle.lower_corner ⟨(mk_point 7 7).x,
          (mk_point 7 7).y, (mk_point 7 7).x, (mk_point 7 7).y⟩)) ∧
      (∀ t2, demo3_tree.insert (mk_point 7 7) = some t2 →
        t2.root.entry_count = demo3_tree.root.entry_count ∧
        ∀ j, j ≠ i → t2.root.child? j = demo3_tree.root.child? j) :=
  ⟨by with_unfolding_all decide, by with_unfolding_all decide,
    C7_choose_leaf_spec (mk_point 7 7) (by with_unfolding_all decide)
      (by with_unfolding_all decide)⟩

/-- C3: for every tree, query point and positive `k`, `knn_query` returns
`min(k, number of reachable points)` pairs `(point, distance)` where each point
is reachable, each distance is the Euclidean distance to the query point, the
pairs are ordered ascending by distance, and the returned pairs together with
the leftover pairs form a permutation of all reachable points with their
distances in which every returned distance is at most every leftover one (the
`k` smallest); in particular if `k` exceeds the number of reachable points the
result length is that number, not `k`. -/
theorem C3_knn_query_spec (t : RTree) (q : Point) (k : ℤ) (hk : 0 < k) :
    (t.knn_query q k).length = min k.toNat (collect_all_points t.root).length ∧
    (∀ pr ∈ t.knn_query q k,
      pr.2 = q.distance_to pr.1 ∧ pr.1 ∈ collect_all_points t.root) ∧
    List.Sorted dist_le (t.knn_query q k) ∧
    ∃ rest, (t.knn_query q k ++ rest).Perm
        ((collect_all_points t.root).map (fun p => (p, q.distance_to p))) ∧
      ∀ a ∈ t.knn_query q k, ∀ b ∈ rest, dist_le a b := by
  have hq : t.knn_query q k = (List.insertionSort dist_le
      ((collect_all_points t.root).map (fun p => (p, q.distance_to p)))).take
        k.toNat := by
    simp only [RTree.knn_query, py_slice]
    rw [if_pos (le_of_lt hk)]
  set pts := collect_all_points t.root with hpts
  set distances := pts.map (fun p => (p, q.distance_to p)) with hd
  set sorted := List.insertionSort dist_le distances with hs
  have hperm : sorted.Perm distances := List.perm_insertionSort dist_le distances
  have hsort : List.Sorted dist_le sorted := List.sorted_insertionSort dist_le distances
  have hlen : sorted.length = pts.length := by
    rw [hs, List.length_insertionSort, hd, List.length_map]
  refine ⟨?_, ?_, ?_, ?_⟩
  · rw [hq, List.length_take, hlen]
  · intro pr hpr
    rw [hq] at hpr
    have h1 : pr ∈ sorted := List.mem_of_mem_take hpr
    have h2 : pr ∈ distances := hperm.subset h1
    rw [hd] at h2
    obtain ⟨p0, hp0, hpe⟩ := List.mem_map.mp h2
    constructor
    · rw [← hpe]
    · rw [← hpe]
      exact hp0
  · rw [hq]
    exact List.Pairwise.sublist (List.take_sublist _ _) hsort
  · refine ⟨sorted.drop k.toNat, ?_, ?_⟩
    · rw [hq, List.take_append_drop]
      exact hperm
    · intro a ha b hb
      rw [hq] at ha
      have hp : List.Pairwise dist_le (sorted.take k.toNat ++ sorted.drop k.toNat) := by
        rw [List.take_append_drop]
        exact hsort
      exact (List.pairwise_append.mp hp).2.2 a ha b hb

theorem C3_witness :
    (0 : ℤ) < 1 ∧
    ((two_tree.knn_query (mk_point 0 0) 1).length =
      min (1 : ℤ).toNat (collect_all_points two_tree.root).length ∧
    (∀ pr ∈ two_tree.knn_query (mk_point 0 0) 1,
      pr.2 = (mk_point 0 0).distance_to pr.1 ∧
        pr.1 ∈ collect_all_points two_tree.root) ∧
    List.Sorted dist_le (two_tree.knn_query (mk_point 0 0) 1) ∧
    ∃ rest, (two_tree.knn_query (mk_point 0 0) 1 ++ rest).Perm
        ((collect_all_points two_tree.root).map
          (fun p => (p, (mk_point 0 0).distance_to p))) ∧
      ∀ a ∈ two_tree.knn_query (mk_point 0 0) 1, ∀ b ∈ rest, dist_le a b) :=
  ⟨by norm_num, C3_knn_query_spec two_tree (mk_point 0 0) 1 (by norm_num)⟩

/-- C2: when insertion overflows a leaf that is not the root (the root is
internal, entry `i` is the chosen child), the split truncates that child to the
first `floor(len/2)` entries and attaches the new sibling nowhere: the
reachable points afterwards are exactly the other children's points plus the
kept half of the overflowed child (so the moved entries become unreachable),
the height does not change, and `size` still increases by exactly the one
inserted point (the split itself changes no size). -/
theorem C2_nonroot_split {t : RTree} {p : Point} {i : ℕ} {en : ℚ}
    {es : List (Rectangle × RTreeNode)} {m : Option Rectangle}
    {les : List (Rectangle × Point)} {lm : Option Rectangle} {er : Rectangle}
    (hroot : t.root = RTreeNode.internal es m)
    (hcb : choose_best (Rectangle.lower_corner ⟨p.x, p.y, p.x, p.y⟩)
      (es.map (fun e => e.1)) = some (i, en))
    (hget : es.get? i = some (er, RTreeNode.leaf les lm))
    (hover : t.max_entries ≤ les.length) :
    ∃ t2, t.insert p = some t2 ∧
      t2.size = t.size + 1 ∧ t2.height = t.height ∧
      collect_all_points t2.root =
        ((t.root.child_points).set i
          ((les.map (fun e => e.2) ++ [p]).take ((les.length + 1) / 2))).flatten := by
  obtain ⟨mx, root, sz, hh⟩ := t
  simp only at hroot hover
  subst hroot
  have hsplit : les.length + 1 > mx := by omega
  have hrec := @insert_rec_leaf_split mx les lm
    (⟨p.x, p.y, p.x, p.y⟩ : Rectangle) p hsplit
  set es2 := les ++ [((⟨p.x, p.y, p.x, p.y⟩ : Rectangle), p)] with hes2
  set kept := (split_leaf es2 (recalc es2 lm)).1 with hkept
  set sib := (split_leaf es2 (recalc es2 lm)).2 with hsib
  have hat := insert_at_eq (⟨p.x, p.y, p.x, p.y⟩ : Rectangle) p i es er
    (RTreeNode.leaf les lm) kept (some sib) hget hrec
  set er2 := (er.expand_to_include
      (Rectangle.lower_corner ⟨p.x, p.y, p.x, p.y⟩)).expand_to_include
      (Rectangle.upper_corner ⟨p.x, p.y, p.x, p.y⟩) with her2
  refine ⟨⟨mx, .internal (es.set i (er2, kept)) m, sz + 1, hh⟩, ?_, rfl, rfl, ?_⟩
  · simp [RTree.insert, insert_rec, hcb, hat]
  · simp only [collect_all_points]
    rw [collect_list_eq_flatten, List.map_set]
    have hcp : (RTreeNode.internal es m).child_points =
        es.map (fun e => collect_all_points e.2) := rfl
    rw [hcp]
    have hlen2 : es2.length = les.length + 1 := by simp [hes2]
    have hkc : collect_all_points kept =
        (les.map (fun e => e.2) ++ [p]).take ((les.length + 1) / 2) := by
      calc collect_all_points kept
          = (es2.take (es2.length / 2)).map (fun e => e.2) := by
            simp [hkept, split_leaf, collect_all_points]
        _ = (es2.map (fun e => e.2)).take (es2.length / 2) := by
            rw [List.map_take]
        _ = (les.map (fun e => e.2) ++ [p]).take ((les.length + 1) / 2) := by
            rw [hlen2, hes2]
            simp
    rw [hkc]

theorem C2_witness :
    demo3_tree.root = RTreeNode.internal demo3_entries (some ⟨0, 0, 2, 2⟩) ∧
    choose_best (Rectangle.lower_corner ⟨(mk_point 5 5).x, (mk_point 5 5).y,
        (mk_point 5 5).x, (mk_point 5 5).y⟩)
      (demo3_entries.map (fun e => e.1)) = some (1, 15) ∧
    demo3_entries.get? 1 =
      some (⟨1, 1, 2, 2⟩, RTreeNode.leaf demo3_leaf1 (some ⟨1, 1, 2, 2⟩)) ∧
    demo3_tree.max_entries ≤ demo3_leaf1.length ∧
    ∃ t2, demo3_tree.insert (mk_point 5 5) = some t2 ∧
      t2.size = demo3_tree.size + 1 ∧ t2.height = demo3_tree.height ∧
      collect_all_points t2.root =
        ((demo3_tree.root.child_points).set 1
          ((demo3_leaf1.map (fun e => e.2) ++ [mk_point 5 5]).take
            ((demo3_leaf1.length + 1) / 2))).flatten :=
  ⟨by with_unfolding_all rfl, by with_unfolding_all decide,
    by with_unfolding_all rfl, by with_unfolding_all decide,
    @C2_nonroot_split demo3_tree (mk_point 5 5) 1 15
      demo3_entries (some ⟨0, 0, 2, 2⟩) demo3_leaf1
      (some ⟨1, 1, 2, 2⟩) ⟨1, 1, 2, 2⟩
      (by with_unfolding_all rfl) (by with_unfolding_all decide)
      (by with_unfolding_all rfl) (by with_unfolding_all decide)⟩
